import Mathlib

/-!
A verification development for the `treeprint` Go package
(src/treeprint.go): an ASCII tree composing library.

Modelling conventions:
* Go `Value` / `MetaValue` are `interface{}` payloads whose only use here
  is their `fmt %v` rendering, so both are modelled by the `String` that
  `%v` produces; `%v` itself becomes the identity (`goFmtV`).  An absent
  (Go `nil`) meta is `Option.none`, and `reflect.DeepEqual` on metas is
  plain equality of `Option String`.
* The `Node.Root` back-pointer cannot be a field of a purely functional
  tree.  Rendering walks the `Root` chain only through `isLast`
  (pointer-equality with the parent's last child), so the chain is
  modelled by the list of those Boolean answers, innermost first: the
  `chain`/`anc` arguments below.  `chain = []` models `n.Root == nil`.
  For a tree built through the package API every node is a fresh
  allocation, so `isLast` is exactly "is positionally the last child".
* Go panics (here: negative slice index in `padding`) are modelled by
  `Option.none`, which propagates to the render entry point.
-/

namespace Treeprint

/-- A tree node, as the Go `Node` struct (lines 98-103): `Meta MetaValue`
(Go `nil` is `none`), `Value Value`, `Nodes []*Node` (ordered children).
The `Root *Node` back-pointer is modelled contextually, see the module
doc-string. -/
inductive Node : Type where
  | mk (meta : Option String) (value : String) (nodes : List Node) : Node

/-- The `Meta` field. -/
def Node.meta : Node → Option String
  | .mk m _ _ => m

/-- The `Value` field. -/
def Node.value : Node → String
  | .mk _ v _ => v

/-- The `Nodes` field (children, in insertion order). -/
def Node.nodes : Node → List Node
  | .mk _ _ ns => ns

/-- Go `strings.Split` on a one-character separator, over character lists. -/
def goSplitChars (sep : Char) : List Char → List (List Char)
  | [] => [[]]
  | c :: cs =>
    let r := goSplitChars sep cs
    if c = sep then [] :: r
    else
      match r with
      | [] => [[c]]
      | h :: t => (c :: h) :: t

/-- Go `strings.Split(s, "\n")` as used in `renderValue` (line 280). -/
def goSplitLines (s : String) : List String :=
  (goSplitChars '\n' s.data).map String.mk

/-- Go `strings.Repeat(" ", n)`. -/
def spaces (n : Nat) : String :=
  String.mk (List.replicate n ' ')

/-- Go `fmt` `%v` applied to a value; values are modelled by their `%v`
rendering (a `String`), so this is the identity.  It is kept as a named
definition because `printValues` (line 265) applies `%v` to the *raw*
value returned by `renderValue`, not to the formatter output. -/
def goFmtV (v : String) : String := v

/-- `EdgeTypeLink` (line 327), at its default value. -/
def EdgeTypeLink : String := "│"

/-- `EdgeTypeMid` (line 329), at its default value. -/
def EdgeTypeMid : String := "├──"

/-- `EdgeTypeEnd` (line 331), at its default value. -/
def EdgeTypeEnd : String := "└──"

/-- The `PrintFunc` struct (lines 24-27): optional custom formatters for
meta values and values.  A Go `nil` function field is `none`. -/
structure PrintFunc where
  MetaFunc : Option (String → String)
  ValueFunc : Option (String → String)

/-- The zero `PrintFunc{}` used by `Node.String()` (line 208). -/
def zeroPrintFunc : PrintFunc := ⟨none, none⟩

/-- `DefaultPrintValue` (lines 57-59): `fmt.Fprintf(w, "%v", v)`. -/
def DefaultPrintValue (v : String) : String := goFmtV v

/-- `DefaultPrintMeta` (lines 53-55): `fmt.Fprintf(w, "[%v]", m)`. -/
def DefaultPrintMeta (m : String) : String := "[" ++ m ++ "]"

/-- `PrintFunc.printValue` (lines 45-51): the custom `ValueFunc` if set,
else `DefaultPrintValue`. -/
def PrintFunc.printValue (p : PrintFunc) (v : String) : String :=
  match p.ValueFunc with
  | some f => f v
  | none => DefaultPrintValue v

/-- `PrintFunc.printMeta` (lines 36-43): the custom `MetaFunc` if set,
else `DefaultPrintMeta`, always followed by two spaces. -/
def PrintFunc.printMeta (p : PrintFunc) (m : String) : String :=
  (match p.MetaFunc with
   | some f => f m
   | none => DefaultPrintMeta m) ++ "  "

/-- `PrintFunc.printNode` (lines 29-34): meta (when non-nil) then value. -/
def PrintFunc.printNode (p : PrintFunc) (n : Node) : String :=
  (match n.meta with
   | some m => p.printMeta m
   | none => "") ++ p.printValue n.value

/-- `isEnded` (lines 268-275): membership of `level` in `levelsEnded`. -/
def isEnded (levelsEnded : List Nat) (level : Nat) : Bool :=
  levelsEnded.any (fun l => l == level)

/-- The per-level connector loop opening `printValues` (lines 250-256):
for each level below the current one, blank padding when the level is
ended, else the vertical link followed by `IndentSize` spaces. -/
def linkPfx (indent level : Nat) (levelsEnded : List Nat) : String :=
  String.join ((List.range level).map fun i =>
    if isEnded levelsEnded i then spaces (indent + 1)
    else EdgeTypeLink ++ spaces indent)

/-- One padding segment as assigned inside the `padding` loop
(lines 307-311): blank (indent+1 spaces) for a last sibling, else the
vertical link plus indent spaces. -/
def padSeg (indent : Nat) (lastSib : Bool) : String :=
  if lastSib then spaces (indent + 1) else EdgeTypeLink ++ spaces indent

/-- Go slice store `links[i] = s`.  A negative or out-of-range index is a
Go runtime panic, modelled as `none`. -/
def setAt (links : List String) (i : Int) (s : String) : Option (List String) :=
  if 0 ≤ i ∧ i < (links.length : Int) then some (links.set i.toNat s) else none

/-- The loop of `padding` (lines 306-314): walk the `Root` chain (here:
the `isLast` answers `chain`, innermost first), storing one segment per
ancestor at a decreasing index. -/
def paddingLoop (indent : Nat) : List Bool → List String → Int → Option (List String)
  | [], links, _ => some links
  | lastSib :: rest, links, level =>
    match setAt links level (padSeg indent lastSib) with
    | none => none
    | some links' => paddingLoop indent rest links' (level - 1)

/-- `padding` (lines 303-317): `links := make([]string, level+1)`, the
upward walk, then `strings.Join(links, "")`. -/
def padding (indent level : Nat) (chain : List Bool) : Option String :=
  (paddingLoop indent chain (List.replicate (level + 1) "") (level : Int)).map String.join

/-- `renderValue` (lines 277-296): format the value, split on `"\n"`;
a single-line value is returned raw (`printValues` then applies `%v`,
folded in here as `goFmtV`); a multi-line value has every line after the
first prefixed with `padding` and is re-joined. -/
def renderValue (pf : PrintFunc) (indent level : Nat) (chain : List Bool)
    (n : Node) : Option String :=
  let lines := goSplitLines (pf.printValue n.value)
  if lines.length < 2 then some (goFmtV n.value)
  else
    match padding indent level chain with
    | none => none
    | some pad =>
      match lines with
      | [] => some ""
      | l0 :: ls => some (String.intercalate "\n" (l0 :: ls.map (fun l => pad ++ l)))

/-- `printValues` (lines 249-266): the per-level connector loop, then the
edge plus one space, the meta (when non-nil) via `printMeta`, the
rendered value, and a newline. -/
def printValues (pf : PrintFunc) (indent level : Nat) (levelsEnded : List Nat)
    (edge : String) (chain : List Bool) (n : Node) : Option String :=
  match renderValue pf indent level chain n with
  | none => none
  | some val =>
    some (linkPfx indent level levelsEnded ++ edge ++ " " ++
      (match n.meta with
       | some m => pf.printMeta m
       | none => "") ++ val ++ "\n")

/-- `printNodes` (lines 235-247): iterate the children; the last child
appends the current level to `levelsEnded` and uses the end edge; after
each child's line(s), recurse into its children one level deeper.
`anc` is the `isLast` chain of these children's parent (the `Root`
pointers of the Go nodes), extended by each child's own flag. -/
def printNodesGo (pf : PrintFunc) (indent : Nat) :
    Nat → List Nat → List Bool → List Node → Option String
  | _, _, _, [] => some ""
  | level, levelsEnded, anc, Node.mk m v ns :: rest =>
    let lastSib := rest.isEmpty
    let le := if lastSib then levelsEnded ++ [level] else levelsEnded
    let edge := if lastSib then EdgeTypeEnd else EdgeTypeMid
    match printValues pf indent level le edge (lastSib :: anc) (Node.mk m v ns) with
    | none => none
    | some s1 =>
      match (if ns.isEmpty then some ""
             else printNodesGo pf indent (level + 1) le (lastSib :: anc) ns) with
      | none => none
      | some s2 =>
        match printNodesGo pf indent level levelsEnded anc rest with
        | none => none
        | some s3 => some (s1 ++ s2 ++ s3)

/-- `Node.Bytes` (lines 178-201).  `chain` models the `Root` pointer
chain of `n` (empty iff `n.Root == nil`): a root prints its own line with
no connector; an attached node prints its line through `printValues` at
level 0 with the end edge iff it has no children; then the children, if
any, are printed from level 0. -/
def nodeBytes (pf : PrintFunc) (indent : Nat) (chain : List Bool) (n : Node) :
    Option String :=
  match (if chain.isEmpty then some (pf.printNode n ++ "\n")
    else if n.nodes.isEmpty then printValues pf indent 0 [0] EdgeTypeEnd chain n
    else printValues pf indent 0 [] EdgeTypeMid chain n) with
  | none => none
  | some h =>
    if n.nodes.isEmpty then some h
    else
      match printNodesGo pf indent 0 [] chain n.nodes with
      | none => none
      | some r => some (h ++ r)

/-- `Node.FindLastNode` (lines 105-111): the last child, or `nil`. -/
def Node.findLastNode (n : Node) : Option Node :=
  n.nodes.getLast?

/-- The loop of `Node.FindByMeta` (lines 154-164): over the children in
order, return a child whose meta deep-equals the target, else recurse
into that child's subtree before moving to the next sibling. -/
def goFindMeta (target : Option String) : List Node → Option Node
  | [] => none
  | Node.mk m v ns :: rest =>
    if m = target then some (Node.mk m v ns)
    else
      match goFindMeta target ns with
      | some found => some found
      | none => goFindMeta target rest

/-- `Node.FindByMeta` (lines 154-164). -/
def Node.findByMeta (n : Node) (target : Option String) : Option Node :=
  goFindMeta target n.nodes

/-- The loop of `Node.FindByValue` (lines 166-176): direct children are
compared by value, but the recursive descent calls `FindByMeta` with the
searched value (line 171). -/
def goFindValue (target : String) : List Node → Option Node
  | [] => none
  | Node.mk m v ns :: rest =>
    if v = target then some (Node.mk m v ns)
    else
      match goFindMeta (some target) ns with
      | some found => some found
      | none => goFindValue target rest

/-- `Node.FindByValue` (lines 166-176). -/
def Node.findByValue (n : Node) (target : String) : Option Node :=
  goFindValue target n.nodes

/-- The children-first depth-first order in which `FindByMeta` visits the
descendants: each child, then its whole subtree, then the next sibling. -/
def preorder : List Node → List Node
  | [] => []
  | Node.mk m v ns :: rest => Node.mk m v ns :: (preorder ns ++ preorder rest)

/-- The Go `Node` struct viewed as heap records, for the mutating
`Branch` receiver: `Root` is a heap index (`none` = Go `nil`), children
are heap indices.  A heap is a list of records addressed by position. -/
structure NodeRec where
  root : Option Nat
  meta : Option String
  value : String
  nodes : List Nat

/-- `Node.Branch` (lines 149-152) over the heap view: `n.Root = nil;
return n` — update the record at `i` to clear its root pointer and
return the same pointer. -/
def branchGo (h : List NodeRec) (i : Nat) : List NodeRec × Nat :=
  match h[i]? with
  | some r => (h.set i { r with root := none }, i)
  | none => (h, i)

/-- Spec-side rendering of the child lines of a list of leaves, written
from the claim: one line per leaf in insertion order, each prefixed with
the mid edge except the last, which gets the end edge. -/
def specChildLines : List String → String
  | [] => ""
  | [v] => EdgeTypeEnd ++ " " ++ v ++ "\n"
  | v :: rest => EdgeTypeMid ++ " " ++ v ++ "\n" ++ specChildLines rest

end Treeprint

namespace Treeprint

/-! ### Helper lemmas -/

/-- Induction over `List Node` following the nested recursion pattern of
the tree-walking functions: the head's children and the tail. -/
theorem nodeList_ind (P : List Node → Prop) (hnil : P [])
    (hcons : ∀ m v ns rest, P ns → P rest → P (Node.mk m v ns :: rest)) :
    ∀ ns, P ns
  | [] => hnil
  | Node.mk m v ns :: rest =>
    hcons m v ns rest (nodeList_ind P hnil hcons ns) (nodeList_ind P hnil hcons rest)

theorem zeroPrintFunc_ValueFunc : zeroPrintFunc.ValueFunc = none := rfl

theorem zeroPrintFunc_MetaFunc : zeroPrintFunc.MetaFunc = none := rfl

theorem set_replicate_append (k : Nat) (acc : List String) (s : String) :
    (List.replicate (k + 1) "" ++ acc).set k s = List.replicate k "" ++ (s :: acc) := by
  induction k with
  | zero => simp [List.replicate]
  | succ n ih =>
    rw [List.replicate_succ]
    simpa [List.replicate_succ] using ih

/-- The `padding` loop, with the links slice still to be filled on the
left: it succeeds exactly when the walk length matches the write index,
producing one segment per ancestor in reverse (root-first) order. -/
theorem paddingLoop_spec (indent : Nat) :
    ∀ (flags : List Bool) (acc : List String),
      paddingLoop indent flags (List.replicate flags.length "" ++ acc)
          ((flags.length : Int) - 1) =
        some ((flags.reverse.map (padSeg indent)) ++ acc) := by
  intro flags
  induction flags with
  | nil => intro acc; simp [paddingLoop]
  | cons f rest ih =>
    intro acc
    have hlen : ((rest.length + 1 : Nat) : Int) - 1 = (rest.length : Int) := by omega
    have hbound : (0 : Int) ≤ (rest.length : Int) ∧
        (rest.length : Int) <
          ((List.replicate (rest.length + 1) "" ++ acc).length : Int) := by
      constructor
      · exact Int.ofNat_nonneg _
      · simp; omega
    simp only [List.length_cons, paddingLoop, hlen, setAt, hbound, and_self, if_true]
    rw [show ((rest.length : Int)).toNat = rest.length from rfl]
    rw [set_replicate_append rest.length acc (padSeg indent f)]
    rw [ih (padSeg indent f :: acc)]
    simp

/-- `padding` at a chain whose length is `level + 1` (the invariant of a
root-level render): the result is the concatenation, from the root level
down to the node's own level, of one segment per ancestor. -/
theorem padding_of_chain_length (indent level : Nat) (chain : List Bool)
    (h : chain.length = level + 1) :
    padding indent level chain =
      some (String.join (chain.reverse.map (padSeg indent))) := by
  unfold padding
  have h2 := paddingLoop_spec indent chain []
  rw [List.append_nil, h] at h2
  have hcast : ((level + 1 : Nat) : Int) - 1 = (level : Int) := by omega
  rw [hcast] at h2
  rw [h2]
  simp

/-! ### Claim theorems -/

/-- C1: in a tree rendered from its root, a node at depth `level + 1` is
rendered with a chain of `level + 1` is-last-sibling flags (node first,
root's child last).  When its value renders to multiple lines, every
line after the first is prefixed with exactly the padding obtained by
walking from the node up to the root and concatenating, from the root
level down to the node's own level, one segment per level: indent+1
spaces if the node at that level is the last child of its parent,
otherwise the vertical-bar glyph followed by indent spaces. -/
theorem multiline_padding_from_ancestors
    (indent level : Nat) (chain : List Bool) (pf : PrintFunc) (n : Node)
    (l0 : String) (ls : List String)
    (hlen : chain.length = level + 1)
    (hsplit : goSplitLines (pf.printValue n.value) = l0 :: ls)
    (hml : ls ≠ []) :
    renderValue pf indent level chain n =
      some (String.intercalate "\n"
        (l0 :: ls.map (fun l =>
          String.join (chain.reverse.map (fun lastSib =>
            if lastSib then spaces (indent + 1)
            else EdgeTypeLink ++ spaces indent)) ++ l))) := by
  have hlt : ¬ ((l0 :: ls).length < 2) := by
    cases ls with
    | nil => exact absurd rfl hml
    | cons x xs => simp
  have hseg : (fun lastSib =>
      if lastSib then spaces (indent + 1)
      else EdgeTypeLink ++ spaces indent) = padSeg indent := by
    funext b; simp [padSeg]
  rw [hseg]
  simp only [renderValue, hsplit, hlt, if_false,
    padding_of_chain_length indent level chain hlen]

/-- Witness for C1: the spec's own test vector — a 3-line value two
levels deep, with both the node and its parent non-last siblings. -/
theorem multiline_padding_from_ancestors_witness :
    renderValue zeroPrintFunc 3 1 [false, false] (Node.mk none "a\nb\nc" []) =
      some "a\n│   │   b\n│   │   c" := by
  have h := multiline_padding_from_ancestors 3 1 [false, false] zeroPrintFunc
    (Node.mk none "a\nb\nc" []) "a" ["b", "c"] (by decide) (by decide) (by decide)
  rw [h]
  decide

/-- C2 (code bug): rendering is *not* total.  `Bytes` on a node that
still has a parent chain of length ≥ 2 and whose value renders to
multiple lines reaches `padding` with `level = 0`, whose loop then walks
two ancestors and stores at slice index `-1` — a Go runtime panic
(modelled as `none`).  The second conjunct shows the same node one level
higher renders fine, isolating the failure to depth ≥ 2. -/
theorem render_attached_deep_multiline_panics :
    nodeBytes zeroPrintFunc 3 [true, true] (Node.mk none "a\nb" []) = none ∧
    nodeBytes zeroPrintFunc 3 [true] (Node.mk none "a\nb" []) =
      some "└── a\n    b\n" := by
  constructor
  · simp [nodeBytes, printNodesGo, printValues, renderValue, goSplitLines,
      goSplitChars, linkPfx, isEnded, goFmtV, PrintFunc.printNode,
      PrintFunc.printValue, PrintFunc.printMeta, DefaultPrintValue,
      DefaultPrintMeta, EdgeTypeMid, EdgeTypeEnd, EdgeTypeLink, Node.nodes,
      Node.meta, Node.value, zeroPrintFunc, spaces, padding, paddingLoop,
      setAt, padSeg]
  · simp [nodeBytes, printNodesGo, printValues, renderValue, goSplitLines,
      goSplitChars, linkPfx, isEnded, goFmtV, PrintFunc.printNode,
      PrintFunc.printValue, PrintFunc.printMeta, DefaultPrintValue,
      DefaultPrintMeta, EdgeTypeMid, EdgeTypeEnd, EdgeTypeLink, Node.nodes,
      Node.meta, Node.value, zeroPrintFunc, spaces, padding, paddingLoop,
      setAt, padSeg]
    decide

/-- Counterexample to C3: a node that *is* the last child of its parent
(chain `[true]`) but has children is rendered with the mid-branch glyph,
not the last-branch glyph the claim demands: the line for `p` below
starts with `├──`. -/
theorem attached_edge_ignores_sibling_position_cex :
    nodeBytes zeroPrintFunc 3 [true] (Node.mk none "p" [Node.mk none "c" []]) =
      some "├── p\n└── c\n" ∧
    ("├── p\n└── c\n").data.take 3 = EdgeTypeMid.data ∧
    EdgeTypeMid.data ≠ EdgeTypeEnd.data := by
  refine ⟨?_, by decide, by decide⟩
  simp [nodeBytes, printNodesGo, printValues, renderValue, goSplitLines,
    goSplitChars, linkPfx, isEnded, goFmtV, PrintFunc.printNode,
    PrintFunc.printValue, PrintFunc.printMeta, DefaultPrintValue,
    DefaultPrintMeta, EdgeTypeMid, EdgeTypeEnd, EdgeTypeLink, Node.nodes,
    Node.meta, Node.value, zeroPrintFunc, spaces, padding, paddingLoop,
    setAt, padSeg]
  decide

/-- C3 as amended: when rendering is invoked on a node that has a parent,
the connector prefix of that node's own line is chosen by whether the
node has children — the last-branch glyph when it has no children, the
mid-branch glyph otherwise — regardless of its sibling position.
(Stated for single-line values under the default formatters.) -/
theorem attached_node_edge_by_children
    (ind : Nat) (chain : List Bool) (n : Node) (s : String)
    (hc : chain ≠ [])
    (hb : nodeBytes zeroPrintFunc ind chain n = some s)
    (hsl : (goSplitLines n.value).length < 2) :
    ∃ t, s = (if n.nodes.isEmpty then EdgeTypeEnd else EdgeTypeMid) ++ " " ++ t := by
  have hce : chain.isEmpty = false := by
    cases chain with
    | nil => exact absurd rfl hc
    | cons a l => rfl
  have hrv : renderValue zeroPrintFunc ind 0 chain n = some n.value := by
    simp [renderValue, PrintFunc.printValue, zeroPrintFunc, DefaultPrintValue,
      goFmtV, hsl]
  have hpv : ∀ le edge, printValues zeroPrintFunc ind 0 le edge chain n =
      some (edge ++ " " ++
        (match n.meta with
         | some m => zeroPrintFunc.printMeta m
         | none => "") ++ n.value ++ "\n") := by
    intro le edge
    simp [printValues, hrv, linkPfx, String.join]
  rcases hns : n.nodes with _ | ⟨a, as⟩
  · simp only [nodeBytes, hce, Bool.false_eq_true, if_false, hns,
      List.isEmpty_nil, if_true, hpv, Option.some.injEq] at hb
    refine ⟨(match n.meta with
      | some m => zeroPrintFunc.printMeta m
      | none => "") ++ n.value ++ "\n", ?_⟩
    rw [← hb]
    simp [hns, String.append_assoc]
  · simp only [nodeBytes, hce, Bool.false_eq_true, if_false, hns,
      List.isEmpty_cons, hpv] at hb
    cases hpn : printNodesGo zeroPrintFunc ind 0 [] chain (a :: as) with
    | none =>
      rw [hpn] at hb
      simp at hb
    | some r =>
      rw [hpn] at hb
      simp only [Option.some.injEq] at hb
      refine ⟨(match n.meta with
        | some m => zeroPrintFunc.printMeta m
        | none => "") ++ n.value ++ "\n" ++ r, ?_⟩
      rw [← hb]
      simp [hns, String.append_assoc]

/-- Witness for C3's amended theorem: an attached last child with one
child gets the mid-branch glyph. -/
theorem attached_node_edge_by_children_witness :
    ∃ t, "├── p\n└── c\n" = EdgeTypeMid ++ " " ++ t := by
  have hb : nodeBytes zeroPrintFunc 3 [true]
      (Node.mk none "p" [Node.mk none "c" []]) = some "├── p\n└── c\n" := by
    simp [nodeBytes, printNodesGo, printValues, renderValue, goSplitLines,
      goSplitChars, linkPfx, isEnded, goFmtV, PrintFunc.printNode,
      PrintFunc.printValue, PrintFunc.printMeta, DefaultPrintValue,
      DefaultPrintMeta, EdgeTypeMid, EdgeTypeEnd, EdgeTypeLink, Node.nodes,
      Node.meta, Node.value, zeroPrintFunc, spaces, padding, paddingLoop,
      setAt, padSeg]
    decide
  have h := attached_node_edge_by_children 3 [true]
    (Node.mk none "p" [Node.mk none "c" []]) "├── p\n└── c\n" (by decide)
    hb (by decide)
  simpa [Node.nodes] using h

/-- Counterexample to C4: a caller-supplied value formatter that renders
`v` as `<v>` does *not* determine the text of an attached single-line
node: `renderValue` returns the raw value, which `printValues` formats
with `%v`, so the child line shows `a`, not `<a>` (the root line, in
contrast, does go through the formatter). -/
theorem single_line_value_formatter_bypassed_cex :
    nodeBytes ⟨none, some (fun s => "<" ++ s ++ ">")⟩ 3 []
      (Node.mk none "r" [Node.mk none "a" []]) = some "<r>\n└── a\n" ∧
    "<r>\n└── a\n" ≠ "<r>\n└── <a>\n" := by
  refine ⟨?_, by decide⟩
  simp [nodeBytes, printNodesGo, printValues, renderValue, goSplitLines,
    goSplitChars, linkPfx, isEnded, goFmtV, PrintFunc.printNode,
    PrintFunc.printValue, PrintFunc.printMeta, DefaultPrintValue,
    DefaultPrintMeta, EdgeTypeMid, EdgeTypeEnd, EdgeTypeLink, Node.nodes,
    Node.meta, Node.value, spaces, padding, paddingLoop, setAt, padSeg]
  decide

/-- C4 as amended: a rendered line is the optional meta through the meta
formatter followed by two spaces, then the value — which, for an
attached node whose formatted value is single-line, is the plain `%v`
stringification of the raw value, not the value formatter's output.
A parentless root's own line does use the value formatter. -/
theorem line_content_meta_then_value
    (f g : String → String) (ind level : Nat) (le : List Nat) (edge : String)
    (chain : List Bool) (n : Node)
    (hsl : (goSplitLines (f n.value)).length < 2) :
    printValues ⟨some g, some f⟩ ind level le edge chain n =
      some (linkPfx ind level le ++ edge ++ " " ++
        (match n.meta with
         | some m => g m ++ "  "
         | none => "") ++ goFmtV n.value ++ "\n") ∧
    PrintFunc.printNode ⟨some g, some f⟩ n =
      (match n.meta with
       | some m => g m ++ "  "
       | none => "") ++ f n.value := by
  constructor
  · cases hm : n.meta <;>
      simp [printValues, renderValue, PrintFunc.printValue, hsl,
        PrintFunc.printMeta, hm]
  · cases hm : n.meta <;>
      simp [PrintFunc.printNode, PrintFunc.printMeta, PrintFunc.printValue, hm]

/-- Witness for C4's amended theorem: meta formatter applied (plus two
spaces), raw value text on an attached single-line node. -/
theorem line_content_meta_then_value_witness :
    printValues ⟨some (fun s => s ++ "*"), some (fun s => "<" ++ s ++ ">")⟩
      3 0 [] "├──" [false] (Node.mk (some "M") "a" []) =
      some "├── M*  a\n" := by
  have h := (line_content_meta_then_value (fun s => "<" ++ s ++ ">")
    (fun s => s ++ "*") 3 0 [] "├──" [false] (Node.mk (some "M") "a" [])
    (by decide)).1
  rw [h]
  decide

/-- `printNodes` on a list of childless, single-line leaves at level 0:
one line per leaf, mid edge except for the last leaf, which gets the end
edge.  `le` and `anc` are irrelevant at level 0 with single-line values. -/
theorem printNodesGo_leaves (ind : Nat) (le : List Nat) (anc : List Bool) :
    ∀ (vs : List String), vs ≠ [] →
      (∀ v ∈ vs, (goSplitLines v).length < 2) →
      printNodesGo zeroPrintFunc ind 0 le anc
          (vs.map (fun v => Node.mk none v [])) =
        some (specChildLines vs) := by
  intro vs
  induction vs with
  | nil => intro hvs _; exact absurd rfl hvs
  | cons v rest ih =>
    intro _ h
    have hv := h v (by simp)
    cases rest with
    | nil =>
      simp [printNodesGo, printValues, renderValue, PrintFunc.printValue,
        zeroPrintFunc_ValueFunc, DefaultPrintValue, goFmtV, hv, linkPfx,
        String.join, specChildLines, Node.meta, Node.value]
    | cons v2 rest2 =>
      have ih2 := ih (by simp) (fun x hx => h x (List.mem_cons_of_mem _ hx))
      rw [List.map_cons]
      generalize hts : List.map (fun v => Node.mk none v []) (v2 :: rest2) = ts at ih2 ⊢
      have hne : ts.isEmpty = false := by rw [← hts]; simp
      simp [printNodesGo, printValues, renderValue, PrintFunc.printValue,
        zeroPrintFunc_ValueFunc, DefaultPrintValue, goFmtV, hv, linkPfx,
        String.join, Node.meta, Node.value, hne, ih2, specChildLines]

/-- C5: appending N single-line leaves to a root and rendering yields the
root line followed by exactly the N child lines in insertion order, each
prefixed with `├──` except the last, which is prefixed with `└──`
(`specChildLines` is that claim-side description). -/
theorem leaves_render_in_order (ind : Nat) (r : String) (vs : List String)
    (h : ∀ v ∈ vs, (goSplitLines v).length < 2) :
    nodeBytes zeroPrintFunc ind []
        (Node.mk none r (vs.map (fun v => Node.mk none v []))) =
      some (r ++ "\n" ++ specChildLines vs) := by
  cases vs with
  | nil =>
    simp [nodeBytes, PrintFunc.printNode, PrintFunc.printValue, zeroPrintFunc,
      DefaultPrintValue, goFmtV, Node.meta, Node.value, Node.nodes,
      specChildLines]
  | cons v rest =>
    have hpl := printNodesGo_leaves ind [] [] (v :: rest) (by simp) h
    generalize hts : List.map (fun v => Node.mk none v []) (v :: rest) = ts at hpl ⊢
    have hne : ts.isEmpty = false := by rw [← hts]; simp
    simp [nodeBytes, PrintFunc.printNode, PrintFunc.printValue,
      zeroPrintFunc_ValueFunc, DefaultPrintValue, goFmtV, Node.meta,
      Node.value, Node.nodes, hne, hpl]

/-- Witness for C5: the spec's §8 example — root `.`, leaves `a`, `b`. -/
theorem leaves_render_in_order_witness :
    nodeBytes zeroPrintFunc 3 []
        (Node.mk none "." (["a", "b"].map (fun v => Node.mk none v []))) =
      some ".\n├── a\n└── b\n" := by
  rw [leaves_render_in_order 3 "." ["a", "b"] (by decide)]
  decide

/-- Any node returned by the `FindByMeta` loop has a meta deep-equal to
the searched target. -/
theorem goFindMeta_sound (target : Option String) :
    ∀ ns, ∀ m, goFindMeta target ns = some m → m.meta = target := by
  refine nodeList_ind
    (fun ns => ∀ m, goFindMeta target ns = some m → m.meta = target) ?_ ?_
  · intro m h
    simp [goFindMeta] at h
  · intro mm vv cns rest ihc ihr m h
    by_cases hm : mm = target
    · simp only [goFindMeta, if_pos hm, Option.some.injEq] at h
      rw [← h]
      exact hm
    · simp only [goFindMeta, hm, if_false] at h
      cases hc : goFindMeta target cns with
      | some f =>
        rw [hc] at h
        simp only [Option.some.injEq] at h
        rw [← h]
        exact ihc f hc
      | none =>
        rw [hc] at h
        exact ihr m h

/-- The `FindByMeta` loop is the first match, under deep equality of
metas, along the children-first depth-first enumeration `preorder`. -/
theorem goFindMeta_eq_find (target : Option String) :
    ∀ ns, goFindMeta target ns =
      (preorder ns).find? (fun x => x.meta == target) := by
  refine nodeList_ind
    (fun ns => goFindMeta target ns =
      (preorder ns).find? (fun x => x.meta == target)) ?_ ?_
  · simp [goFindMeta, preorder]
  · intro mm vv cns rest ihc ihr
    by_cases hm : mm = target
    · simp [goFindMeta, preorder, hm, Node.meta]
    · simp only [goFindMeta, preorder, hm, if_false, ihc, ihr]
      rw [List.find?_cons_of_neg _ (by simp [Node.meta, hm])]
      rw [List.find?_append]
      cases hc : (preorder cns).find? (fun x => x.meta == target) <;>
        simp [Option.or]

/-- C7: `FindByMeta` performs a children-first depth-first search over
the receiver's descendants, returning the first node whose meta
deep-equals the target, and the absence marker (`none`) exactly when no
descendant matches. -/
theorem findByMeta_children_first_dfs (target : Option String) (n : Node) :
    n.findByMeta target =
      (preorder n.nodes).find? (fun x => x.meta == target) ∧
    (n.findByMeta target = none ↔
      ∀ x ∈ preorder n.nodes, x.meta ≠ target) := by
  have he := goFindMeta_eq_find target n.nodes
  refine ⟨he, ?_⟩
  rw [Node.findByMeta, he, List.find?_eq_none]
  simp

/-- Witness for C7: a single match three levels deep is found; the
first-match value agrees with the depth-first enumeration. -/
theorem findByMeta_children_first_dfs_witness :
    (Node.mk none "r"
        [Node.mk none "a" [Node.mk none "b" [Node.mk (some "T") "c" []]]]).findByMeta
        (some "T") =
      some (Node.mk (some "T") "c" []) := by
  rw [(findByMeta_children_first_dfs (some "T") _).1]
  simp [preorder, Node.nodes, Node.meta]

/-- C6: `FindByValue` compares each direct child's value to the target by
deep equality, but its recursive descent goes through the meta-matching
search: any node it returns is either a direct child with matching value
or a deeper node whose *meta* equals the searched value; a deeper node
whose value (but not meta) matches is not found, and a deeper node whose
meta matches is returned. -/
theorem findByValue_descends_via_meta (t : String) :
    (∀ (n : Node) (m : Node), n.findByValue t = some m →
        (m ∈ n.nodes ∧ m.value = t) ∨ m.meta = some t) ∧
    (Node.mk none "r" [Node.mk none (t ++ "x") [Node.mk none t []]]).findByValue t
      = none ∧
    (Node.mk none "r"
        [Node.mk none (t ++ "x") [Node.mk (some t) (t ++ "x") []]]).findByValue t
      = some (Node.mk (some t) (t ++ "x") []) := by
  have hne : ¬ (t ++ "x" = t) := by
    intro hne
    have hlen := congrArg (fun s => s.data.length) hne
    simp [String.data_append] at hlen
  refine ⟨?_, ?_, ?_⟩
  · intro n
    rw [Node.findByValue]
    induction n.nodes with
    | nil =>
      intro m h
      simp [goFindValue] at h
    | cons hd rest ih =>
      obtain ⟨mm, vv, cns⟩ := hd
      intro m h
      by_cases hv : vv = t
      · simp only [goFindValue, if_pos hv, Option.some.injEq] at h
        subst h
        exact Or.inl ⟨List.mem_cons_self _ _, hv⟩
      · simp only [goFindValue, hv, if_false] at h
        cases hc : goFindMeta (some t) cns with
        | some f =>
          rw [hc] at h
          simp only [Option.some.injEq] at h
          subst h
          exact Or.inr (goFindMeta_sound (some t) cns f hc)
        | none =>
          rw [hc] at h
          rcases ih m h with ⟨hmem, hval⟩ | hmeta
          · exact Or.inl ⟨List.mem_cons_of_mem _ hmem, hval⟩
          · exact Or.inr hmeta
  · simp [Node.findByValue, Node.nodes, goFindValue, goFindMeta, Node.meta, hne]
  · simp [Node.findByValue, Node.nodes, goFindValue, goFindMeta, Node.meta, hne]

/-- Witness for C6's universal part: a direct child found by value. -/
theorem findByValue_descends_via_meta_witness :
    ((Node.mk none "a" []) ∈ (Node.mk none "r" [Node.mk none "a" []]).nodes ∧
      (Node.mk none "a" []).value = "a") ∨
    (Node.mk none "a" []).meta = some "a" := by
  refine (findByValue_descends_via_meta "a").1
    (Node.mk none "r" [Node.mk none "a" []]) (Node.mk none "a" []) ?_
  simp [Node.findByValue, Node.nodes, goFindValue]

/-- C10: on a tree with at least one descendant whose meta was never set,
`FindByMeta` with the absent-meta value (`nil`) does not return the
absence marker: an unset meta deep-equals `nil`, so it returns the first
meta-less descendant in children-first depth-first order. -/
theorem findByMeta_nil_matches_unset_meta (n : Node)
    (h : ∃ x ∈ preorder n.nodes, x.meta = none) :
    n.findByMeta none ≠ none ∧
    n.findByMeta none = (preorder n.nodes).find? (fun x => x.meta == none) := by
  have he := goFindMeta_eq_find none n.nodes
  constructor
  · intro hn
    rw [Node.findByMeta, he, List.find?_eq_none] at hn
    obtain ⟨x, hx, hxm⟩ := h
    exact hn x hx (by simp [hxm])
  · rw [Node.findByMeta]
    exact he

/-- Witness for C10: a node with unset meta two levels down is found by
`FindByMeta nil`. -/
theorem findByMeta_nil_matches_unset_meta_witness :
    (Node.mk none "r"
        [Node.mk (some "a") "x" [Node.mk none "y" []]]).findByMeta none ≠ none := by
  exact (findByMeta_nil_matches_unset_meta _
    ⟨Node.mk none "y" [], by simp [preorder, Node.nodes], rfl⟩).1

theorem set_self_of_getElem {α : Type} (l : List α) (i : Nat) (a : α)
    (h : l[i]? = some a) : l.set i a = l := by
  induction l generalizing i with
  | nil => simp at h
  | cons x xs ih =>
    cases i with
    | zero =>
      simp only [List.getElem?_cons_zero, Option.some.injEq] at h
      simp [h]
    | succ n =>
      simp only [List.getElem?_cons_succ] at h
      simp [ih n h]

/-- C8: over the heap view of the node graph, `Branch` clears only the
receiver's parent back-reference: it returns the same node pointer, the
node keeps its meta, value and children, every other record — including
the former parent, whose children list still contains the node — is
untouched, reapplying it changes nothing more (idempotence), and on a
node that already has no parent it is a complete no-op. -/
theorem branch_clears_only_parent_ref (h : List NodeRec) (i : Nat) (r : NodeRec)
    (hi : h[i]? = some r) :
    (branchGo h i).2 = i ∧
    ((branchGo h i).1)[i]? = some ⟨none, r.meta, r.value, r.nodes⟩ ∧
    (∀ j, j ≠ i → ((branchGo h i).1)[j]? = h[j]?) ∧
    (∀ (p : Nat) (pr : NodeRec), h[p]? = some pr →
      ∃ pr' : NodeRec, ((branchGo h i).1)[p]? = some pr' ∧
        pr'.meta = pr.meta ∧ pr'.value = pr.value ∧ pr'.nodes = pr.nodes) ∧
    branchGo (branchGo h i).1 i = branchGo h i ∧
    (r.root = none → branchGo h i = (h, i)) := by
  have hlen : i < h.length := by
    by_contra hc
    push_neg at hc
    rw [List.getElem?_eq_none hc] at hi
    cases hi
  have hb : branchGo h i = (h.set i ⟨none, r.meta, r.value, r.nodes⟩, i) := by
    simp [branchGo, hi]
  refine ⟨by rw [hb], ?_, ?_, ?_, ?_, ?_⟩
  · rw [hb]
    exact List.getElem?_set_self hlen
  · intro j hj
    rw [hb]
    exact List.getElem?_set_ne (Ne.symm hj)
  · intro p pr hp
    by_cases hpi : p = i
    · subst hpi
      rw [hi] at hp
      have hrp : r = pr := by simpa using hp
      subst hrp
      refine ⟨⟨none, r.meta, r.value, r.nodes⟩, ?_, rfl, rfl, rfl⟩
      rw [hb]
      exact List.getElem?_set_self hlen
    · refine ⟨pr, ?_, rfl, rfl, rfl⟩
      rw [hb]
      rw [List.getElem?_set_ne (fun he => hpi he.symm)]
      exact hp
  · rw [hb]
    have h2 : (h.set i (⟨none, r.meta, r.value, r.nodes⟩ : NodeRec))[i]? =
        some ⟨none, r.meta, r.value, r.nodes⟩ :=
      List.getElem?_set_self (by simpa using hlen)
    simp [branchGo, h2, List.set_set]
  · intro hr
    rw [hb]
    have hrr : (⟨none, r.meta, r.value, r.nodes⟩ : NodeRec) = r := by
      cases r with
      | mk a b c d => simp only at hr ⊢; rw [hr]
    rw [hrr, set_self_of_getElem h i r hi]

/-- Witness for C8: detaching the child at heap index 1 clears its root
pointer in place and returns the same index. -/
theorem branch_clears_only_parent_ref_witness :
    ((branchGo [⟨none, none, "root", [1]⟩, ⟨some 0, none, "kid", []⟩] 1).1)[1]? =
      some ⟨none, none, "kid", []⟩ ∧
    (branchGo [⟨none, none, "root", [1]⟩, ⟨some 0, none, "kid", []⟩] 1).2 = 1 := by
  have h := branch_clears_only_parent_ref
    [⟨none, none, "root", [1]⟩, ⟨some 0, none, "kid", []⟩] 1
    ⟨some 0, none, "kid", []⟩ rfl
  exact ⟨h.2.1, h.1⟩

theorem endsNL_append {a b : String} (ha : a = "" ∨ ∃ t, a = t ++ "\n")
    (hb : b = "" ∨ ∃ t, b = t ++ "\n") :
    a ++ b = "" ∨ ∃ t, a ++ b = t ++ "\n" := by
  rcases hb with hb | ⟨t, ht⟩
  · subst hb
    simpa using ha
  · subst ht
    exact Or.inr ⟨a ++ t, (String.append_assoc a t "\n").symm⟩

theorem printValues_ends_nl (pf : PrintFunc) (ind level : Nat) (le : List Nat)
    (edge : String) (chain : List Bool) (n : Node) (s : String)
    (h : printValues pf ind level le edge chain n = some s) :
    ∃ t, s = t ++ "\n" := by
  simp only [printValues] at h
  split at h
  · simp at h
  · simp only [Option.some.injEq] at h
    exact ⟨_, h.symm⟩

/-- Every successful `printNodes` output is empty or ends in a newline. -/
theorem printNodesGo_ends_nl (pf : PrintFunc) (ind : Nat) :
    ∀ ns, ∀ level le anc s,
      printNodesGo pf ind level le anc ns = some s →
      s = "" ∨ ∃ t, s = t ++ "\n" := by
  refine nodeList_ind (fun ns => ∀ level le anc s,
    printNodesGo pf ind level le anc ns = some s →
    s = "" ∨ ∃ t, s = t ++ "\n") ?_ ?_
  · intro level le anc s hs
    simp only [printNodesGo, Option.some.injEq] at hs
    exact Or.inl hs.symm
  · intro mm vv cns rest ihc ihr level le anc s hs
    simp only [printNodesGo] at hs
    split at hs
    · simp at hs
    · rename_i s1 heq1
      split at hs
      · simp at hs
      · rename_i s2 heq2
        split at hs
        · simp at hs
        · rename_i s3 heq3
          simp only [Option.some.injEq] at hs
          obtain ⟨t1, ht1⟩ := printValues_ends_nl pf ind _ _ _ _ _ s1 heq1
          have h2 : s2 = "" ∨ ∃ t, s2 = t ++ "\n" := by
            split at heq2
            · exact Or.inl (by simpa using heq2.symm)
            · exact ihc _ _ _ _ heq2
          have h3 := ihr _ _ _ _ heq3
          rw [← hs]
          exact endsNL_append (endsNL_append (Or.inr ⟨t1, ht1⟩) h2) h3

theorem goSplitChars_ne_nil (sep : Char) : ∀ l, goSplitChars sep l ≠ [] := by
  intro l
  cases l with
  | nil => simp [goSplitChars]
  | cons c cs =>
    simp only [goSplitChars]
    by_cases hc : c = sep
    · simp [hc]
    · simp only [hc, if_false]
      cases hr : goSplitChars sep cs <;> simp

theorem goSplitChars_singleton (sep : Char) :
    ∀ l, (goSplitChars sep l).length = 1 → goSplitChars sep l = [l] := by
  intro l
  induction l with
  | nil => intro _; rfl
  | cons c cs ih =>
    intro h
    by_cases hc : c = sep
    · exfalso
      simp only [goSplitChars, if_pos hc, List.length_cons] at h
      exact goSplitChars_ne_nil sep cs (List.length_eq_zero.mp (by omega))
    · simp only [goSplitChars, if_neg hc] at h ⊢
      cases hr : goSplitChars sep cs with
      | nil => exact absurd hr (goSplitChars_ne_nil sep cs)
      | cons hd tl =>
        rw [hr] at h
        replace h : ((c :: hd) :: tl).length = 1 := h
        simp only [List.length_cons] at h
        have htl : tl = [] := List.length_eq_zero.mp (by omega)
        subst htl
        have h2 := ih (by rw [hr]; rfl)
        rw [hr] at h2
        simp only [List.cons.injEq, and_true] at h2
        show ((c :: hd) :: ([] : List (List Char))) = [c :: cs]
        rw [h2]

theorem goSplitChars_append_sep (sep : Char) :
    ∀ l, goSplitChars sep (l ++ [sep]) = goSplitChars sep l ++ [[]] := by
  intro l
  induction l with
  | nil => simp [goSplitChars]
  | cons c cs ih =>
    by_cases hc : c = sep
    · simp [goSplitChars, hc, ih]
    · simp only [List.cons_append, goSplitChars, if_neg hc]
      cases hr : goSplitChars sep cs with
      | nil => exact absurd hr (goSplitChars_ne_nil sep cs)
      | cons hd tl =>
        have ih2 : goSplitChars sep (List.append cs [sep]) =
            goSplitChars sep cs ++ [[]] := ih
        rw [ih2, hr]
        rfl

/-- One content line plus the trailing break: splitting `v ++ "\n"` on
line breaks, for single-line `v`, yields exactly `[v, ""]`. -/
theorem goSplitLines_append_nl (v : String) (h : (goSplitLines v).length = 1) :
    goSplitLines (v ++ "\n") = [v, ""] := by
  unfold goSplitLines at h ⊢
  rw [String.data_append]
  rw [show ("\n" : String).data = [Char.ofNat 10] from rfl]
  rw [show (Char.ofNat 10) = '\n' from rfl]
  rw [goSplitChars_append_sep]
  rw [goSplitChars_singleton '\n' v.data (by simpa using h)]
  rfl

/-- C9: a parentless node with no children renders as exactly its own
line — the node's content with no connector prefix, a trailing line
break, nothing else (for the default formatters and no meta, literally
`value ++ "\n"`, i.e. one content line plus the trailing break when the
value is single-line) — and every render invoked on a root ends with a
trailing line break. -/
theorem root_render_own_line_and_trailing_newline :
    (∀ (pf : PrintFunc) (ind : Nat) (m : Option String) (v : String),
        nodeBytes pf ind [] (Node.mk m v []) =
          some (pf.printNode (Node.mk m v []) ++ "\n")) ∧
    (∀ (ind : Nat) (v : String),
        nodeBytes zeroPrintFunc ind [] (Node.mk none v []) = some (v ++ "\n")) ∧
    (∀ (ind : Nat) (v : String), (goSplitLines v).length = 1 →
        ∃ s, nodeBytes zeroPrintFunc ind [] (Node.mk none v []) = some s ∧
          goSplitLines s = [v, ""]) ∧
    (∀ (pf : PrintFunc) (ind : Nat) (n : Node) (s : String),
        nodeBytes pf ind [] n = some s → ∃ t, s = t ++ "\n") := by
  have hline : ∀ (ind : Nat) (v : String),
      nodeBytes zeroPrintFunc ind [] (Node.mk none v []) = some (v ++ "\n") := by
    intro ind v
    simp [nodeBytes, Node.nodes, PrintFunc.printNode, Node.meta, Node.value,
      PrintFunc.printValue, zeroPrintFunc_ValueFunc, DefaultPrintValue, goFmtV]
  refine ⟨?_, hline, ?_, ?_⟩
  · intro pf ind m v
    simp [nodeBytes, Node.nodes]
  · intro ind v hv
    exact ⟨v ++ "\n", hline ind v, goSplitLines_append_nl v hv⟩
  · intro pf ind n s hs
    simp only [nodeBytes] at hs
    split at hs
    · simp at hs
    · rename_i h0 heq
      simp only [List.isEmpty_nil, if_true, Option.some.injEq] at heq
      split at hs
      · simp only [Option.some.injEq] at hs
        exact ⟨pf.printNode n, by rw [← hs, ← heq]⟩
      · split at hs
        · simp at hs
        · rename_i r heq2
          simp only [Option.some.injEq] at hs
          rcases printNodesGo_ends_nl pf ind n.nodes 0 [] [] r heq2 with hr | ⟨t, ht⟩
          · subst hr
            exact ⟨pf.printNode n, by rw [← hs, ← heq]; simp⟩
          · subst ht
            exact ⟨h0 ++ t, by rw [← hs, String.append_assoc]⟩

/-- Witness for C9: the fresh tree `New()` (root value `.`) renders as
one line with a trailing break, and the trailing-break clause applies. -/
theorem root_render_own_line_and_trailing_newline_witness :
    ∃ t, ".\n" = t ++ "\n" := by
  refine root_render_own_line_and_trailing_newline.2.2.2 zeroPrintFunc 3
    (Node.mk none "." []) ".\n" ?_
  rw [root_render_own_line_and_trailing_newline.2.1 3 "."]
  decide

end Treeprint

